/-
Verification of the dense-linear-system solver core of the HW3 repository
(`hw3c.py`): Cholesky factorization of the coefficient block of an augmented
matrix, forward/backward substitution, the symmetric-positive-definite
classifier, and the dispatcher that routes each system either to the Cholesky
path or to the external Doolittle solver.

Modelling conventions:
* Python floats are modelled by exact real numbers `ℝ`; Python's promotion of
  `x ** 0.5` on a negative float to a complex result is modelled separately
  over `ℂ` with the principal complex power `z ^ (2⁻¹ : ℂ)`.
* Python lists of numbers are `List ℝ` (resp. `List ℂ`); out-of-range indexing
  defaults to `0` via `List.getD` (the claims only exercise in-range indices).
* The `random.uniform(-1, 1)` calls of the classifier are modelled by an
  injected stream of draws (a `List ℝ`), returned alongside the result so that
  consumption of draws is observable.
* Python's `ZeroDivisionError` is modelled by `Option`/`Except`-valued
  "checked" variants of the routines; the unchecked variants use Lean's total
  division and are the values the checked variants return on success.
* `DoolittleMethod.Doolittle` is an external collaborator (its module is not
  part of the repository sources); the dispatcher is parametrised over it.
-/
import Mathlib

namespace HW3

/-! ### Matrix access helpers -/

/-- Index into a Python list of numbers; out of range gives `0`. -/
def vidx {α : Type*} [Zero α] (v : List α) (i : ℕ) : α := v.getD i 0

/-- Index into a Python list-of-lists matrix; out of range gives `0`. -/
def idx {α : Type*} [Zero α] (m : List (List α)) (i j : ℕ) : α :=
  (m.getD i []).getD j 0

/-- `compute_transpose` from `hw3c.py` (both copies are identical):
`[[matrix[j][i] for j in range(len(matrix))] for i in range(len(matrix[0]))]`. -/
def compute_transpose {α : Type*} [Zero α] (matrix : List (List α)) : List (List α) :=
  (List.range (matrix.headD []).length).map fun i =>
    (List.range matrix.length).map fun j => idx matrix j i

/-- Modelled from the spec: `Gauss_Seidel.separateAugmented` is imported by
`hw3c.py` but its module is not among the repository sources.  Per the spec,
`splitAugmented(Aug) → (A, b)` where `A` is all columns except the last and
`b` is the last column as a (flat) vector. -/
def separateAugmented {α : Type*} [Zero α] (aug : List (List α)) :
    List (List α) × List α :=
  (aug.map List.dropLast, aug.map fun row => row.getLast?.getD 0)

/-- The right-hand side as received by `decompose_cholesky` before the
`isinstance(vector[0], list)` check: Python being dynamically typed, it is
either already a flat list of numbers or a nested column of singleton rows. -/
inductive PyRhs (α : Type*) where
  | flat (v : List α)
  | nested (rows : List (List α))

/-- Lines 73–75 of `hw3c.py`:
`if isinstance(vector[0], list): vector = [item for sublist in vector for item in sublist]`. -/
def flatten_rhs {α : Type*} : PyRhs α → List α
  | .flat v => v
  | .nested rows => rows.flatten

/-! ### The Cholesky factor (lines 81–88 of `hw3c.py`)

The Python loop writes each cell `lower[i][j]` (for `j ≤ i`) exactly once, in
row-major order, reading only cells written earlier (`lower[i][k]`, `k < j`;
`lower[j][k]`, `k ≤ j`, for rows `j < i`); cells with `j > i` keep their `0.0`
initialisation.  `chol s A i j` is the value cell `(i, j)` holds at the end,
parametrised over the square-root function `s` (which is `x ↦ x ** 0.5`):
`Real.sqrt` in the real model, the principal complex power in the `ℂ` model. -/
noncomputable def chol {α : Type*} [Field α] (s : α → α) (A : ℕ → ℕ → α) :
    ℕ → ℕ → α
  | i, j =>
    if i < j then 0
    else if i = j then
      s (A i i - ∑ k ∈ (Finset.range i).attach, chol s A i k.1 ^ 2)
    else
      (A i j - ∑ k ∈ (Finset.range j).attach, chol s A i k.1 * chol s A j k.1) /
        chol s A j j
termination_by i j => (i, j)
decreasing_by
  all_goals
    first
    | exact Prod.Lex.right _ (by have := Finset.mem_range.mp k.2; omega)
    | exact Prod.Lex.left _ _ (by omega)

/-- The radicand of the diagonal entry `i`: `A[i][i] − Σ_{k<i} L[i][k]²`. -/
noncomputable def radicand {α : Type*} [Field α] (s : α → α) (A : ℕ → ℕ → α)
    (i : ℕ) : α :=
  A i i - ∑ k ∈ Finset.range i, chol s A i k ^ 2

/-! ### Triangular substitution (lines 37–69 of `hw3c.py`) -/

/-- `forward_substitution`: `y[i] = (b[i] - Σ_{j<i} L[i][j]·y[j]) / L[i][i]`,
as the value of cell `i` (each `y[i]` is written once, reading earlier cells). -/
noncomputable def forwardVal {α : Type*} [Field α] (L : ℕ → ℕ → α) (b : ℕ → α) :
    ℕ → α
  | i =>
    (b i - ∑ j ∈ (Finset.range i).attach, L i j.1 * forwardVal L b j.1) / L i i
termination_by i => i
decreasing_by exact Finset.mem_range.mp j.2

/-- `backward_substitution` over an `n`-vector:
`x[i] = (v[i] - Σ_{i<j<n} U[i][j]·x[j]) / U[i][i]`, cells written in
decreasing index order, each reading only later cells. -/
noncomputable def backwardVal {α : Type*} [Field α] (U : ℕ → ℕ → α) (v : ℕ → α)
    (n : ℕ) : ℕ → α
  | i =>
    (v i - ∑ j ∈ (Finset.Ico (i + 1) n).attach, U i j.1 * backwardVal U v n j.1) /
      U i i
termination_by i => n - i
decreasing_by
  have h := Finset.mem_Ico.mp j.2
  omega

/-- Proof-side auxiliary (not part of the program): the solution `u` of the
upper-triangular system `Lᵗ·u = -c` restricted to indices `< i`, used to build
the test vector that witnesses positivity of the Cholesky radicands. -/
noncomputable def usol (L : ℕ → ℕ → ℝ) (c : ℕ → ℝ) (i : ℕ) : ℕ → ℝ
  | r =>
    (- c r - ∑ m ∈ (Finset.Ico (r + 1) i).attach, L m.1 r * usol L c i m.1) /
      L r r
termination_by r => i - r
decreasing_by
  have h := Finset.mem_Ico.mp m.2
  omega

/-- Proof-side auxiliary: the test vector `(u, 1, 0, 0, …)` whose quadratic
form against a part-built factorization isolates the radicand of row `i`. -/
noncomputable def testv (L : ℕ → ℕ → ℝ) (i : ℕ) : ℕ → ℝ := fun m =>
  if m < i then usol L (fun r => L i r) i m else if m = i then 1 else 0

/-- The list returned by `forward_substitution(lower, vector)`. -/
noncomputable def forward_substitution (lower : List (List ℝ)) (vector : List ℝ) :
    List ℝ :=
  (List.range vector.length).map (forwardVal (idx lower) (vidx vector))

/-- The list returned by `backward_substitution(upper, vector)`. -/
noncomputable def backward_substitution (upper : List (List ℝ)) (vector : List ℝ) :
    List ℝ :=
  (List.range vector.length).map
    (backwardVal (idx upper) (vidx vector) vector.length)

/-! ### `decompose_cholesky` (lines 6–97 of `hw3c.py`) -/

/-- Body of `decompose_cholesky` after the `separateAugmented` call: flatten
the right-hand side if it is nested, build `lower`, transpose it, then solve
by forward and backward substitution.  Returns `(x, lower, upper)`. -/
noncomputable def decompose_cholesky_core (matrix : List (List ℝ)) (rhs : PyRhs ℝ) :
    List ℝ × List (List ℝ) × List (List ℝ) :=
  let vector := flatten_rhs rhs
  let size := matrix.length
  let lower := (List.range size).map fun i =>
    (List.range size).map fun j => chol Real.sqrt (idx matrix) i j
  let upper := compute_transpose lower
  let y := forward_substitution lower vector
  let x := backward_substitution upper y
  (x, lower, upper)

/-- `decompose_cholesky(matrix_aug)`.  Under the spec-modelled
`separateAugmented` the right-hand side arrives flat. -/
noncomputable def decompose_cholesky (matrix_aug : List (List ℝ)) :
    List ℝ × List (List ℝ) × List (List ℝ) :=
  decompose_cholesky_core (separateAugmented matrix_aug).1
    (.flat (separateAugmented matrix_aug).2)

/-! ### The SPD classifier (lines 100–138 of `hw3c.py`) -/

/-- The quadratic form of lines 133–136:
`sum(v[i] * sum(matrix[i][j] * v[j] for j in range(len(matrix))) for i in range(len(matrix)))`. -/
def quadratic_form (matrix : List (List ℝ)) (v : List ℝ) : ℝ :=
  ∑ i ∈ Finset.range matrix.length,
    vidx v i * ∑ j ∈ Finset.range matrix.length, idx matrix i j * vidx v j

-- `check_symmetric_positive_definite(matrix)`.  The random draws of
-- `random.uniform(-1, 1)` are modelled by the injected stream `rng`; the result
-- carries the unconsumed remainder of the stream, so "no draw consumed" is the
-- statement that the returned stream is `rng` itself.
open Classical in
noncomputable def check_symmetric_positive_definite (matrix : List (List ℝ))
    (rng : List ℝ) : Bool × List ℝ :=
  let transpose_matrix := compute_transpose matrix
  if matrix ≠ transpose_matrix then (false, rng)
  else
    let random_vector := rng.take matrix.length
    (if 0 < quadratic_form matrix random_vector then true else false,
      rng.drop matrix.length)

/-! ### The dispatcher (lines 141–169 of `hw3c.py`) -/

/-- The method recorded with each solution (spec §3, `SolutionResult.method`). -/
inductive Method where
  | Cholesky
  | Doolittle

-- One iteration of the loop of `execute_main` (lines 155–167), returning the
-- solution together with the method used instead of printing it.  `doolittle`
-- is the external `DoolittleMethod.Doolittle` collaborator, which receives the
-- full augmented matrix unchanged.
open Classical in
noncomputable def solve_one (doolittle : List (List ℝ) → List ℝ)
    (matrix_aug : List (List ℝ)) (rng : List ℝ) : List ℝ × Method :=
  let A := (separateAugmented matrix_aug).1
  if (check_symmetric_positive_definite A rng).1 then
    ((decompose_cholesky matrix_aug).1, Method.Cholesky)
  else
    (doolittle matrix_aug, Method.Doolittle)

/-- First predefined augmented matrix of `execute_main`. -/
def matrix1 : List (List ℝ) :=
  [[1, -1, 3, 2, 15], [-1, 5, -5, -2, -35], [3, -5, 19, 3, 94], [2, -2, 3, 21, 1]]

/-- Second predefined augmented matrix of `execute_main`. -/
def matrix2 : List (List ℝ) :=
  [[4, 2, 4, 0, 20], [2, 2, 3, 2, 36], [4, 3, 6, 3, 60], [0, 2, 3, 9, 122]]

/-- Matrix–vector product, for stating `A·x = b`. -/
def mat_vec_mul (A : List (List ℝ)) (x : List ℝ) : List ℝ :=
  (List.range A.length).map fun i =>
    ∑ j ∈ Finset.range x.length, idx A i j * vidx x j

/-! ### Checked variants: Python's `ZeroDivisionError` made explicit

The unchecked routines above use Lean's total division.  Python instead raises
`ZeroDivisionError` the moment a divisor is `0`.  The checked variants below
return `none`/`Except.error` in exactly that situation and otherwise the same
values as the unchecked routines. -/

-- `forward_substitution` processing rows `0..n-1` in increasing order; row `i`
-- divides by `lower[i][i]` (the numerator itself contains no division).
open Classical in
noncomputable def forward_substitution_checked {α : Type*} [Field α]
    (L : ℕ → ℕ → α) (b : ℕ → α) : ℕ → Option (List α)
  | 0 => some []
  | n + 1 =>
    match forward_substitution_checked L b n with
    | none => none
    | some ys =>
      if L n n = 0 then none
      else
        some (ys ++ [(b n - ∑ j ∈ Finset.range n, L n j * ys.getD j 0) / L n n])

-- `backward_substitution` processing rows `n-1` down to `0`; after `k` steps
-- the accumulator holds `[x[n-k], …, x[n-1]]`; row `i = n-(k+1)` divides by
-- `upper[i][i]`.
open Classical in
noncomputable def backward_substitution_checked {α : Type*} [Field α]
    (U : ℕ → ℕ → α) (v : ℕ → α) (n : ℕ) : ℕ → Option (List α)
  | 0 => some []
  | k + 1 =>
    match backward_substitution_checked U v n k with
    | none => none
    | some xs =>
      if U (n - (k + 1)) (n - (k + 1)) = 0 then none
      else
        some ((v (n - (k + 1)) -
            ∑ j ∈ Finset.Ico (n - (k + 1) + 1) n,
              U (n - (k + 1)) j * xs.getD (j - (n - (k + 1) + 1)) 0) /
            U (n - (k + 1)) (n - (k + 1)) :: xs)

/-! ### The complex model of the factorization

Python evaluates `x ** 0.5` on a negative float by promoting to `complex` and
taking the principal power, so a negative radicand does not raise; it yields a
non-real entry and the rest of the computation continues in complex
arithmetic.  Divisions still raise `ZeroDivisionError` on a zero divisor. -/

/-- Python's `x ** 0.5`: the principal power `z ^ (1/2)`.  On a nonnegative
real this is the real square root; on a negative real it is `i·√(-x)`. -/
noncomputable def pysqrtC (z : ℂ) : ℂ := z ^ ((2 : ℂ)⁻¹)

-- Error tracking for the factor loop (lines 81–88): row `r` divides by the
-- already-computed pivots `lower[j][j]` for each `j < r` and by nothing else
-- (the diagonal entry of row `r` involves no division).  Rows are processed
-- in increasing order and the first zero divisor aborts the call.
open Classical in
noncomputable def factor_checked (A : ℕ → ℕ → ℂ) : ℕ → Except Unit Unit
  | 0 => Except.ok ()
  | r + 1 =>
    match factor_checked A r with
    | Except.error e => Except.error e
    | Except.ok _ =>
      if ∀ j < r, chol pysqrtC A j j ≠ 0 then Except.ok () else Except.error ()

/-- The three stages of `decompose_cholesky` in the complex model with
Python's `ZeroDivisionError` made explicit: factor the coefficient block, then
solve by forward substitution against `lower` and backward substitution
against `upper = transpose(lower)` (as a function, `upper i j = lower j i`),
returning only the solution vector `x`.  Here `n` is both the size of the
coefficient block and the length of the right-hand side (they coincide:
each is the number of rows of the augmented matrix). -/
noncomputable def solve_stages (A : ℕ → ℕ → ℂ) (b : ℕ → ℂ) (n : ℕ) :
    Except Unit (List ℂ) :=
  match factor_checked A n with
  | Except.error _ => Except.error ()
  | Except.ok _ =>
    match forward_substitution_checked (chol pysqrtC A) b n with
    | none => Except.error ()
    | some ys =>
      match backward_substitution_checked (fun i j => chol pysqrtC A j i)
          (vidx ys) n n with
      | none => Except.error ()
      | some xs => Except.ok xs

/-- `decompose_cholesky` in the complex model (checked): split the augmented
matrix and run the three stages. -/
noncomputable def solve_cholesky_checked (aug : List (List ℂ)) :
    Except Unit (List ℂ) :=
  solve_stages (idx (separateAugmented aug).1) (vidx (separateAugmented aug).2)
    (separateAugmented aug).1.length

/-- Hand-computed Cholesky factor of the coefficient block of `matrix1`
(a proof artifact, validated in the lemmas below). -/
def lower1 : List (List ℝ) :=
  [[1, 0, 0, 0], [-1, 2, 0, 0], [3, -1, 3, 0], [2, 0, -1, 4]]

/-- Hand-computed Cholesky factor of the coefficient block of `matrix2`
(a proof artifact, validated in the lemmas below). -/
def lower2 : List (List ℝ) :=
  [[2, 0, 0, 0], [1, 1, 0, 0], [2, 1, 1, 0], [0, 2, 1, 2]]

/-! ### Equation lemmas for the recursively defined cell values -/

theorem chol_gt {α : Type*} [Field α] (s : α → α) (A : ℕ → ℕ → α) {i j : ℕ}
    (h : i < j) : chol s A i j = 0 := by
  rw [chol]
  simp [h]

theorem chol_diag {α : Type*} [Field α] (s : α → α) (A : ℕ → ℕ → α) (i : ℕ) :
    chol s A i i = s (A i i - ∑ k ∈ Finset.range i, chol s A i k ^ 2) := by
  rw [chol]
  rw [if_neg (lt_irrefl i), if_pos rfl,
    Finset.sum_attach (Finset.range i) (fun k => chol s A i k ^ 2)]

theorem chol_diag_radicand {α : Type*} [Field α] (s : α → α) (A : ℕ → ℕ → α)
    (i : ℕ) : chol s A i i = s (radicand s A i) :=
  chol_diag s A i

theorem chol_off {α : Type*} [Field α] (s : α → α) (A : ℕ → ℕ → α) {i j : ℕ}
    (h : j < i) :
    chol s A i j =
      (A i j - ∑ k ∈ Finset.range j, chol s A i k * chol s A j k) /
        chol s A j j := by
  rw [chol]
  rw [if_neg (by omega), if_neg (by omega),
    Finset.sum_attach (Finset.range j) (fun k => chol s A i k * chol s A j k)]

theorem forwardVal_eq {α : Type*} [Field α] (L : ℕ → ℕ → α) (b : ℕ → α)
    (i : ℕ) :
    forwardVal L b i =
      (b i - ∑ j ∈ Finset.range i, L i j * forwardVal L b j) / L i i := by
  rw [forwardVal]
  rw [Finset.sum_attach (Finset.range i) (fun j => L i j * forwardVal L b j)]

theorem backwardVal_eq {α : Type*} [Field α] (U : ℕ → ℕ → α) (v : ℕ → α)
    (n i : ℕ) :
    backwardVal U v n i =
      (v i - ∑ j ∈ Finset.Ico (i + 1) n, U i j * backwardVal U v n j) /
        U i i := by
  rw [backwardVal]
  rw [Finset.sum_attach (Finset.Ico (i + 1) n) (fun j => U i j * backwardVal U v n j)]

/-! ### Characterisation of the checked substitutions -/

theorem getD_map_range {α : Type*} (f : ℕ → α) (d : α) {n j : ℕ} (h : j < n) :
    ((List.range n).map f).getD j d = f j := by
  rw [List.getD_eq_getElem?_getD]
  simp [List.getElem?_map, List.getElem?_range, h]

-- The forward routine succeeds exactly when no diagonal entry among the
-- first `n` is zero, and then returns the vector of `forwardVal` values.
open Classical in
theorem forward_checked_eq {α : Type*} [Field α] (L : ℕ → ℕ → α) (b : ℕ → α)
    (n : ℕ) :
    forward_substitution_checked L b n =
      if ∃ i, i < n ∧ L i i = 0 then none
      else some ((List.range n).map (forwardVal L b)) := by
  induction n with
  | zero => simp [forward_substitution_checked]
  | succ n ih =>
    rw [forward_substitution_checked, ih]
    by_cases hex : ∃ i, i < n ∧ L i i = 0
    · obtain ⟨i, hi, hz⟩ := hex
      rw [if_pos ⟨i, hi, hz⟩, if_pos ⟨i, by omega, hz⟩]
    · rw [if_neg hex]
      dsimp only
      by_cases hz : L n n = 0
      · rw [if_pos hz, if_pos ⟨n, by omega, hz⟩]
      · rw [if_neg hz, if_neg (by
          rintro ⟨i, hi, h0⟩
          rcases Nat.lt_succ_iff_lt_or_eq.mp hi with h | h
          · exact hex ⟨i, h, h0⟩
          · exact hz (h ▸ h0))]
        have hR : (List.range (n + 1)).map (forwardVal L b) =
            (List.range n).map (forwardVal L b) ++ [forwardVal L b n] := by
          rw [List.range_succ, List.map_append, List.map_cons, List.map_nil]
        rw [hR]
        have hsum : ∑ j ∈ Finset.range n,
              L n j * ((List.range n).map (forwardVal L b)).getD j 0 =
            ∑ j ∈ Finset.range n, L n j * forwardVal L b j := by
          refine Finset.sum_congr rfl fun j hj => ?_
          rw [getD_map_range _ _ (Finset.mem_range.mp hj)]
        rw [hsum]
        conv_rhs => rw [forwardVal_eq L b n]

-- The backward routine after `k ≤ n` steps: it has failed exactly when one
-- of the last `k` diagonal entries is zero, and otherwise holds
-- `[x[n-k], …, x[n-1]]` where `x` is `backwardVal`.
open Classical in
theorem backward_checked_eq {α : Type*} [Field α] (U : ℕ → ℕ → α) (v : ℕ → α)
    (n : ℕ) :
    ∀ k, k ≤ n →
      backward_substitution_checked U v n k =
        if ∃ i, n - k ≤ i ∧ i < n ∧ U i i = 0 then none
        else some ((List.range k).map fun t => backwardVal U v n (n - k + t)) := by
  intro k
  induction k with
  | zero =>
    rw [backward_substitution_checked, if_neg (by rintro ⟨i, h1, h2, h3⟩; omega)]
    simp
  | succ k ih =>
    intro hk
    rw [backward_substitution_checked, ih (by omega)]
    by_cases hex : ∃ i, n - k ≤ i ∧ i < n ∧ U i i = 0
    · obtain ⟨i, hi, hin, hz⟩ := hex
      rw [if_pos ⟨i, hi, hin, hz⟩, if_pos ⟨i, by omega, hin, hz⟩]
    · rw [if_neg hex]
      dsimp only
      by_cases hz : U (n - (k + 1)) (n - (k + 1)) = 0
      · rw [if_pos hz, if_pos ⟨n - (k + 1), by omega, by omega, hz⟩]
      · rw [if_neg hz, if_neg (by
          rintro ⟨i, hi, hin, h0⟩
          rcases Nat.lt_or_ge i (n - k) with h | h
          · have hieq : i = n - (k + 1) := by omega
            exact hz (hieq ▸ h0)
          · exact hex ⟨i, h, hin, h0⟩)]
        have hR : (List.range (k + 1)).map
              (fun t => backwardVal U v n (n - (k + 1) + t)) =
            backwardVal U v n (n - (k + 1)) ::
              (List.range k).map fun t => backwardVal U v n (n - k + t) := by
          rw [List.range_succ_eq_map, List.map_cons, List.map_map]
          congr 1
          refine List.map_congr_left fun t ht => ?_
          simp only [Function.comp_apply]
          congr 1
          omega
        rw [hR]
        have hnk : n - (k + 1) + 1 = n - k := by omega
        have hsum : ∑ j ∈ Finset.Ico (n - (k + 1) + 1) n,
              U (n - (k + 1)) j *
                ((List.range k).map fun t =>
                  backwardVal U v n (n - k + t)).getD (j - (n - (k + 1) + 1)) 0 =
            ∑ j ∈ Finset.Ico (n - (k + 1) + 1) n,
              U (n - (k + 1)) j * backwardVal U v n j := by
          refine Finset.sum_congr rfl fun j hj => ?_
          have hj1 := (Finset.mem_Ico.mp hj).1
          have hj2 := (Finset.mem_Ico.mp hj).2
          have hjb : j - (n - (k + 1) + 1) < k := by omega
          rw [getD_map_range _ _ hjb]
          have hji : n - k + (j - (n - (k + 1) + 1)) = j := by omega
          rw [hji]
        rw [hsum]
        conv_rhs => rw [backwardVal_eq U v n (n - (k + 1))]

theorem usol_eq (L : ℕ → ℕ → ℝ) (c : ℕ → ℝ) (i r : ℕ) :
    usol L c i r =
      (- c r - ∑ m ∈ Finset.Ico (r + 1) i, L m r * usol L c i m) / L r r := by
  rw [usol]
  rw [Finset.sum_attach (Finset.Ico (r + 1) i) (fun m => L m r * usol L c i m)]

/-! ### Reconstruction: the recurrences recover `A` where the pivots allow -/

theorem gram_off (A : ℕ → ℕ → ℝ) {i j : ℕ} (h : j < i)
    (hpiv : chol Real.sqrt A j j ≠ 0) :
    A i j = ∑ k ∈ Finset.range (j + 1),
      chol Real.sqrt A i k * chol Real.sqrt A j k := by
  rw [Finset.sum_range_succ, chol_off Real.sqrt A h, div_mul_cancel₀ _ hpiv]
  ring

theorem gram_diag (A : ℕ → ℕ → ℝ) (i : ℕ)
    (hrad : 0 ≤ radicand Real.sqrt A i) :
    A i i = ∑ k ∈ Finset.range (i + 1), chol Real.sqrt A i k ^ 2 := by
  rw [Finset.sum_range_succ, chol_diag_radicand, Real.sq_sqrt hrad, radicand]
  ring

theorem sum_mul_extend (A : ℕ → ℕ → ℝ) {j m : ℕ} (i : ℕ) (hjm : j < m) :
    ∑ k ∈ Finset.range (j + 1), chol Real.sqrt A i k * chol Real.sqrt A j k =
      ∑ k ∈ Finset.range m, chol Real.sqrt A i k * chol Real.sqrt A j k := by
  refine Finset.sum_subset (by intro x hx; simp only [Finset.mem_range] at *; omega)
    fun x hx hnx => ?_
  have hjx : j < x := by
    simp only [Finset.mem_range] at hx hnx
    omega
  rw [chol_gt Real.sqrt A hjx, mul_zero]

/-- `A i j` as the inner product of rows `i` and `j` of the factor, over any
range `m > j`, assuming `j ≤ i`, nonzero pivot at `j` if `j < i`, and a
nonnegative radicand at `i` if `j = i`. -/
theorem gram_prod (A : ℕ → ℕ → ℝ) {i j m : ℕ} (hji : j ≤ i) (hjm : j < m)
    (hpiv : j < i → chol Real.sqrt A j j ≠ 0)
    (hrad : j = i → 0 ≤ radicand Real.sqrt A i) :
    A i j = ∑ k ∈ Finset.range m,
      chol Real.sqrt A i k * chol Real.sqrt A j k := by
  rcases lt_or_eq_of_le hji with h | h
  · rw [gram_off A h (hpiv h), sum_mul_extend A i hjm]
  · subst h
    rw [gram_diag A j (hrad rfl)]
    rw [show ∑ k ∈ Finset.range (j + 1), chol Real.sqrt A j k ^ 2 =
        ∑ k ∈ Finset.range (j + 1),
          chol Real.sqrt A j k * chol Real.sqrt A j k from
      Finset.sum_congr rfl fun k _ => by ring]
    exact sum_mul_extend A j hjm

/-- `usol` does solve `Lᵗ·u = -c` on the indices below `i`. -/
theorem usol_solves (L : ℕ → ℕ → ℝ) (c : ℕ → ℝ) (i : ℕ)
    (hpiv : ∀ r < i, L r r ≠ 0) :
    ∀ r < i, ∑ m ∈ Finset.Ico r i, L m r * usol L c i m = - c r := by
  intro r hr
  rw [Finset.sum_eq_sum_Ico_succ_bot hr]
  rw [usol_eq]
  field_simp [hpiv r hr]

theorem testv_self (L : ℕ → ℕ → ℝ) (i : ℕ) : testv L i i = 1 := by
  simp [testv]

theorem testv_lt (L : ℕ → ℕ → ℝ) {i m : ℕ} (h : m < i) :
    testv L i m = usol L (fun r => L i r) i m := by
  simp [testv, h]

theorem testv_gt (L : ℕ → ℕ → ℝ) {i m : ℕ} (h : i < m) : testv L i m = 0 := by
  rw [testv]
  rw [if_neg (by omega), if_neg (by omega)]

/-- Against a lower-triangular `L` with nonzero pivots below `i`, the test
vector annihilates every column `k < i` of the factor. -/
theorem testv_col (L : ℕ → ℕ → ℝ) (i : ℕ)
    (hlow : ∀ r k, r < k → L r k = 0) (hpiv : ∀ r, r < i → L r r ≠ 0) :
    ∀ k, k < i → ∑ r ∈ Finset.range (i + 1), testv L i r * L r k = 0 := by
  intro k hk
  rw [Finset.sum_range_succ, testv_self, one_mul]
  have h1 : ∑ r ∈ Finset.range i, testv L i r * L r k
      = ∑ m ∈ Finset.Ico k i, L m k * usol L (fun r => L i r) i m := by
    rw [Finset.range_eq_Ico,
      ← Finset.sum_Ico_consecutive _ (Nat.zero_le k) (le_of_lt hk)]
    have h0 : ∑ r ∈ Finset.Ico 0 k, testv L i r * L r k = 0 :=
      Finset.sum_eq_zero fun r hr => by
        rw [hlow r k (Finset.mem_Ico.mp hr).2, mul_zero]
    rw [h0, zero_add]
    refine Finset.sum_congr rfl fun r hr => ?_
    rw [testv_lt L (Finset.mem_Ico.mp hr).2]
    ring
  rw [h1]
  have h2 := usol_solves L (fun r => L i r) i hpiv k hk
  simp only at h2
  rw [h2]
  ring

/-- The quadratic form of the test vector against a matrix that agrees with
`L·Lᵗ` on the leading block except for a defect `c` at `(i, i)` is exactly
`c`. -/
theorem testv_quadratic (A L : ℕ → ℕ → ℝ) (i : ℕ) (c : ℝ)
    (hA : ∀ r, r ≤ i → ∀ s, s ≤ i → A r s =
      (∑ k ∈ Finset.range i, L r k * L s k) +
        (if r = i ∧ s = i then c else 0))
    (hcol : ∀ k, k < i → ∑ r ∈ Finset.range (i + 1), testv L i r * L r k = 0)
    {n : ℕ} (hin : i < n) :
    ∑ r ∈ Finset.range n, ∑ s ∈ Finset.range n,
      testv L i r * A r s * testv L i s = c := by
  have hinner : ∀ r, ∑ s ∈ Finset.range (i + 1),
      testv L i r * A r s * testv L i s =
      ∑ s ∈ Finset.range n, testv L i r * A r s * testv L i s := fun r =>
    Finset.sum_subset (Finset.range_subset.mpr (by omega)) fun s hs hns => by
      have hsi : i < s := by
        simp only [Finset.mem_range] at hs hns
        omega
      rw [testv_gt _ hsi, mul_zero]
  have hrestrict : ∑ r ∈ Finset.range n, ∑ s ∈ Finset.range n,
      testv L i r * A r s * testv L i s =
      ∑ r ∈ Finset.range (i + 1), ∑ s ∈ Finset.range (i + 1),
        testv L i r * A r s * testv L i s := by
    rw [show ∑ r ∈ Finset.range (i + 1), ∑ s ∈ Finset.range (i + 1),
        testv L i r * A r s * testv L i s =
        ∑ r ∈ Finset.range (i + 1), ∑ s ∈ Finset.range n,
          testv L i r * A r s * testv L i s from
      Finset.sum_congr rfl fun r _ => hinner r]
    refine (Finset.sum_subset (Finset.range_subset.mpr (by omega))
      fun r hr hnr => ?_).symm
    have hri : i < r := by
      simp only [Finset.mem_range] at hr hnr
      omega
    refine Finset.sum_eq_zero fun s hs => ?_
    rw [testv_gt _ hri]
    ring
  rw [hrestrict]
  have hsub : ∑ r ∈ Finset.range (i + 1), ∑ s ∈ Finset.range (i + 1),
      testv L i r * A r s * testv L i s =
      (∑ r ∈ Finset.range (i + 1), ∑ s ∈ Finset.range (i + 1),
        testv L i r * (∑ k ∈ Finset.range i, L r k * L s k) * testv L i s) +
      (∑ r ∈ Finset.range (i + 1), ∑ s ∈ Finset.range (i + 1),
        testv L i r * (if r = i ∧ s = i then c else 0) * testv L i s) := by
    rw [← Finset.sum_add_distrib]
    refine Finset.sum_congr rfl fun r hr => ?_
    rw [← Finset.sum_add_distrib]
    refine Finset.sum_congr rfl fun s hs => ?_
    rw [hA r (Finset.mem_range_succ_iff.mp hr) s (Finset.mem_range_succ_iff.mp hs)]
    ring
  have hB : ∑ r ∈ Finset.range (i + 1), ∑ s ∈ Finset.range (i + 1),
      testv L i r * (∑ k ∈ Finset.range i, L r k * L s k) * testv L i s = 0 := by
    have hswap : ∀ r s : ℕ, testv L i r * (∑ k ∈ Finset.range i, L r k * L s k) *
        testv L i s =
        ∑ k ∈ Finset.range i, (testv L i r * L r k) * (testv L i s * L s k) := by
      intro r s
      rw [Finset.mul_sum, Finset.sum_mul]
      exact Finset.sum_congr rfl fun k _ => by ring
    calc ∑ r ∈ Finset.range (i + 1), ∑ s ∈ Finset.range (i + 1),
          testv L i r * (∑ k ∈ Finset.range i, L r k * L s k) * testv L i s
        = ∑ r ∈ Finset.range (i + 1), ∑ s ∈ Finset.range (i + 1),
            ∑ k ∈ Finset.range i,
              (testv L i r * L r k) * (testv L i s * L s k) :=
          Finset.sum_congr rfl fun r _ => Finset.sum_congr rfl fun s _ => hswap r s
      _ = ∑ r ∈ Finset.range (i + 1), ∑ k ∈ Finset.range i,
            ∑ s ∈ Finset.range (i + 1),
              (testv L i r * L r k) * (testv L i s * L s k) :=
          Finset.sum_congr rfl fun r _ => Finset.sum_comm
      _ = ∑ k ∈ Finset.range i, ∑ r ∈ Finset.range (i + 1),
            ∑ s ∈ Finset.range (i + 1),
              (testv L i r * L r k) * (testv L i s * L s k) := Finset.sum_comm
      _ = ∑ k ∈ Finset.range i,
            (∑ r ∈ Finset.range (i + 1), testv L i r * L r k) *
              (∑ s ∈ Finset.range (i + 1), testv L i s * L s k) :=
          Finset.sum_congr rfl fun k _ => (Finset.sum_mul_sum _ _ _ _).symm
      _ = 0 := by
          refine Finset.sum_eq_zero fun k hk => ?_
          rw [hcol k (Finset.mem_range.mp hk), zero_mul]
  have hdelta : ∑ r ∈ Finset.range (i + 1), ∑ s ∈ Finset.range (i + 1),
      testv L i r * (if r = i ∧ s = i then c else 0) * testv L i s = c := by
    rw [Finset.sum_eq_single i ?h0 ?h1]
    case h0 =>
      intro r hr hrne
      refine Finset.sum_eq_zero fun s hs => ?_
      rw [if_neg fun h => hrne h.1]
      ring
    case h1 =>
      intro h
      exact absurd (Finset.self_mem_range_succ i) h
    rw [Finset.sum_eq_single i ?h2 ?h3]
    case h2 =>
      intro s hs hsne
      rw [if_neg fun h => hsne h.2]
      ring
    case h3 =>
      intro h
      exact absurd (Finset.self_mem_range_succ i) h
    rw [testv_self, if_pos ⟨rfl, rfl⟩]
    ring
  rw [hsub, hB, hdelta, zero_add]

/-- For symmetric positive-definite input every diagonal radicand of the
Cholesky loop is strictly positive (so every pivot is well defined and
positive). -/
theorem rad_pos (A : ℕ → ℕ → ℝ) (n : ℕ)
    (hsym : ∀ i j, A j i = A i j)
    (hpd : ∀ v : ℕ → ℝ, (∃ i, i < n ∧ v i ≠ 0) →
      0 < ∑ r ∈ Finset.range n, ∑ s ∈ Finset.range n, v r * A r s * v s) :
    ∀ i, i < n → 0 < radicand Real.sqrt A i := by
  intro i
  induction i using Nat.strong_induction_on with
  | _ i IH =>
    intro hin
    have hpiv : ∀ r, r < i → chol Real.sqrt A r r ≠ 0 := fun r hr => by
      rw [chol_diag_radicand]
      exact ne_of_gt (Real.sqrt_pos.mpr (IH r hr (hr.trans hin)))
    have hcol := testv_col (chol Real.sqrt A) i
      (fun r k h => chol_gt Real.sqrt A h) hpiv
    have hA : ∀ r, r ≤ i → ∀ s, s ≤ i → A r s =
        (∑ k ∈ Finset.range i, chol Real.sqrt A r k * chol Real.sqrt A s k) +
          (if r = i ∧ s = i then radicand Real.sqrt A i else 0) := by
      intro r hr s hs
      by_cases hri : r = i
      · by_cases hsi : s = i
        · rw [if_pos ⟨hri, hsi⟩, hri, hsi, radicand]
          rw [show ∑ k ∈ Finset.range i, chol Real.sqrt A i k * chol Real.sqrt A i k =
              ∑ k ∈ Finset.range i, chol Real.sqrt A i k ^ 2 from
            Finset.sum_congr rfl fun k _ => by ring]
          ring
        · have hs' : s < i := by omega
          subst hri
          rw [if_neg fun h => hsi h.2, add_zero]
          exact gram_prod A (le_of_lt hs') hs' (fun _ => hpiv s hs')
            fun h => absurd h (Nat.ne_of_lt hs')
      · have hr' : r < i := by omega
        by_cases hsi : s = i
        · subst hsi
          rw [if_neg fun h => hri h.1, add_zero, hsym s r]
          rw [gram_prod A (le_of_lt hr') hr' (fun _ => hpiv r hr')
            fun h => absurd h (Nat.ne_of_lt hr')]
          exact Finset.sum_congr rfl fun k _ => by ring
        · have hs' : s < i := by omega
          rw [if_neg fun h => hri h.1, add_zero]
          rcases le_total s r with hsr | hrs
          · exact gram_prod A hsr hs' (fun hlt => hpiv s hs')
              fun h => le_of_lt (h ▸ IH r hr' (hr'.trans hin))
          · rw [hsym s r]
            rw [gram_prod A hrs hr' (fun hlt => hpiv r hr')
              fun h => le_of_lt (h ▸ IH s hs' (hs'.trans hin))]
            exact Finset.sum_congr rfl fun k _ => by ring
    have hQ := hpd (testv (chol Real.sqrt A) i)
      ⟨i, hin, by rw [testv_self]; norm_num⟩
    rw [testv_quadratic A (chol Real.sqrt A) i (radicand Real.sqrt A i) hA hcol hin]
      at hQ
    exact hQ

/-! ### Full reconstruction and uniqueness of the factor -/

/-- For symmetric positive-definite `A` the factor reproduces `A`:
`(L·Lᵗ)[i][j] = A[i][j]` on the whole `n×n` block. -/
theorem chol_mul_transpose (A : ℕ → ℕ → ℝ) (n : ℕ)
    (hsym : ∀ i j, A j i = A i j)
    (hpd : ∀ v : ℕ → ℝ, (∃ i, i < n ∧ v i ≠ 0) →
      0 < ∑ r ∈ Finset.range n, ∑ s ∈ Finset.range n, v r * A r s * v s) :
    ∀ i, i < n → ∀ j, j < n →
      ∑ k ∈ Finset.range n, chol Real.sqrt A i k * chol Real.sqrt A j k =
        A i j := by
  have hrad := rad_pos A n hsym hpd
  have hpiv : ∀ r, r < n → chol Real.sqrt A r r ≠ 0 := fun r hr => by
    rw [chol_diag_radicand]
    exact ne_of_gt (Real.sqrt_pos.mpr (hrad r hr))
  intro i hi j hj
  rcases le_total j i with hji | hij
  · exact (gram_prod A hji hj (fun _ => hpiv j hj)
      fun _ => le_of_lt (hrad i hi)).symm
  · rw [hsym j i, gram_prod A hij hi (fun _ => hpiv i hi)
      fun _ => le_of_lt (hrad j hj)]
    exact Finset.sum_congr rfl fun k _ => by ring

/-- If a matrix `M` with positive diagonal reproduces `A` as `M·Mᵗ` on the
leading block, then the factor computed by the loop is exactly `M` there
(uniqueness of the Cholesky factor; used to evaluate concrete runs). -/
theorem chol_unique (A M : ℕ → ℕ → ℝ) (n : ℕ)
    (hAM : ∀ i, i < n → ∀ j, j ≤ i →
      A i j = ∑ k ∈ Finset.range (j + 1), M i k * M j k)
    (hpos : ∀ i, i < n → 0 < M i i) :
    ∀ i, i < n → ∀ j, j ≤ i → chol Real.sqrt A i j = M i j := by
  intro i
  induction i using Nat.strong_induction_on with
  | _ i IH =>
    intro hin j
    induction j using Nat.strong_induction_on with
    | _ j IHj =>
      intro hji
      rcases lt_or_eq_of_le hji with hj | hj
      · rw [chol_off Real.sqrt A hj]
        have hjj : chol Real.sqrt A j j = M j j :=
          IH j hj (hj.trans hin) j le_rfl
        have hsum : ∑ k ∈ Finset.range j,
            chol Real.sqrt A i k * chol Real.sqrt A j k =
            ∑ k ∈ Finset.range j, M i k * M j k :=
          Finset.sum_congr rfl fun k hk => by
            rw [IHj k (Finset.mem_range.mp hk)
                (le_of_lt ((Finset.mem_range.mp hk).trans_le hji)),
              IH j hj (hj.trans hin) k (le_of_lt (Finset.mem_range.mp hk))]
        rw [hsum, hjj, hAM i hin j (le_of_lt hj), Finset.sum_range_succ,
          add_sub_cancel_left,
          mul_div_cancel_right₀ _ (ne_of_gt (hpos j (hj.trans hin)))]
      · rw [hj] at IHj ⊢
        rw [chol_diag_radicand, radicand]
        have hsum : ∑ k ∈ Finset.range i, chol Real.sqrt A i k ^ 2 =
            ∑ k ∈ Finset.range i, M i k * M i k :=
          Finset.sum_congr rfl fun k hk => by
            rw [show chol Real.sqrt A i k ^ 2 =
                chol Real.sqrt A i k * chol Real.sqrt A i k from by ring,
              IHj k (Finset.mem_range.mp hk)
                (le_of_lt (Finset.mem_range.mp hk))]
        rw [hsum, hAM i hin i le_rfl, Finset.sum_range_succ, add_sub_cancel_left]
        exact Real.sqrt_mul_self (le_of_lt (hpos i hin))

/-! ### Characterisation of the checked complex pipeline -/

theorem factor_checked_ok_iff (A : ℕ → ℕ → ℂ) (n : ℕ) :
    factor_checked A n = Except.ok () ↔
      ∀ j, j + 1 < n → chol pysqrtC A j j ≠ 0 := by
  induction n with
  | zero => simp [factor_checked]
  | succ n ih =>
    rw [factor_checked]
    rcases hfc : factor_checked A n with e | u
    · dsimp only
      constructor
      · intro h
        exact absurd h (by simp)
      · intro h
        have hok : factor_checked A n = Except.ok () :=
          ih.mpr fun j hj => h j (by omega)
        rw [hfc] at hok
        exact absurd hok (by simp)
    · dsimp only
      by_cases hall : ∀ j < n, chol pysqrtC A j j ≠ 0
      · rw [if_pos hall]
        constructor
        · intro _ j hj
          exact hall j (by omega)
        · intro _
          rfl
      · rw [if_neg hall]
        constructor
        · intro h
          exact absurd h (by simp)
        · intro h
          exact absurd (fun j hj => h j (by omega)) hall

/-- The checked pipeline fails exactly when some diagonal entry of the factor
is zero: a zero pivot is hit by the factor loop itself when `i + 1 < n`, and
by the substitutions otherwise. -/
theorem solve_stages_error_iff (A : ℕ → ℕ → ℂ) (b : ℕ → ℂ) (n : ℕ) :
    solve_stages A b n = Except.error () ↔
      ∃ i, i < n ∧ chol pysqrtC A i i = 0 := by
  simp only [solve_stages]
  by_cases hfac : ∀ j, j + 1 < n → chol pysqrtC A j j ≠ 0
  · rw [(factor_checked_ok_iff A n).mpr hfac]
    dsimp only
    by_cases hex : ∃ i, i < n ∧ chol pysqrtC A i i = 0
    · rw [forward_checked_eq, if_pos hex]
      simp only [hex, iff_true]
    · rw [forward_checked_eq, if_neg hex]
      dsimp only
      push_neg at hex
      rw [backward_checked_eq _ _ n n le_rfl,
        if_neg (by rintro ⟨i, h1, h2, h3⟩; exact hex i h2 h3)]
      dsimp only
      constructor
      · intro h
        exact absurd h (by simp)
      · rintro ⟨i, h1, h2⟩
        exact absurd h2 (hex i h1)
  · have herr : ∃ e, factor_checked A n = Except.error e := by
      rcases hfc : factor_checked A n with e | u
      · exact ⟨e, rfl⟩
      · cases u
        exact absurd ((factor_checked_ok_iff A n).mp hfc) hfac
    rcases herr with ⟨e, he⟩
    rw [he]
    dsimp only
    push_neg at hfac
    rcases hfac with ⟨j, hj, hz⟩
    constructor
    · intro _
      exact ⟨j, by omega, hz⟩
    · intro _
      rfl

/-! ### Python's `** 0.5` on negative reals -/

theorem pysqrtC_sq (z : ℂ) : pysqrtC z ^ 2 = z := by
  rw [pysqrtC, ← Complex.cpow_nat_mul]
  rw [show ((2 : ℕ) : ℂ) * (2 : ℂ)⁻¹ = 1 by norm_num]
  exact Complex.cpow_one z

/-- A negative radicand yields a genuinely non-real value: the result of
`** 0.5` has nonzero imaginary part, never a silently-coerced real. -/
theorem pysqrtC_im_ne_zero_of_neg (x : ℝ) (hx : x < 0) :
    (pysqrtC (x : ℂ)).im ≠ 0 := by
  intro h0
  have hsq := pysqrtC_sq (x : ℂ)
  have h2 : ((pysqrtC (x : ℂ)) ^ 2).re =
      (pysqrtC (x : ℂ)).re * (pysqrtC (x : ℂ)).re -
        (pysqrtC (x : ℂ)).im * (pysqrtC (x : ℂ)).im := by
    rw [pow_two, Complex.mul_re]
  have hxx : x = (pysqrtC (x : ℂ)).re * (pysqrtC (x : ℂ)).re := by
    have hc := congrArg Complex.re hsq
    rw [h2, h0] at hc
    simpa using hc.symm
  nlinarith [hxx]

theorem pysqrtC_neg_one : pysqrtC (-1 : ℂ) = Complex.I := by
  rw [pysqrtC, Complex.cpow_def_of_ne_zero (by norm_num), Complex.log_neg_one]
  rw [show ((Real.pi : ℂ) * Complex.I * (2 : ℂ)⁻¹) =
      ((Real.pi : ℂ) / 2) * Complex.I by ring]
  rw [Complex.exp_mul_I, Complex.cos_pi_div_two, Complex.sin_pi_div_two]
  ring

theorem pysqrtC_one : pysqrtC (1 : ℂ) = 1 := Complex.one_cpow _

/-! ### Reading entries of the constructed factor list -/

theorem getD_default {α : Type*} (l : List α) (d : α) {i : ℕ}
    (h : l.length ≤ i) : l.getD i d = d := by
  rw [List.getD_eq_getElem?_getD, List.getElem?_eq_none h]
  rfl

theorem idx_build {α : Type*} [Zero α] (g : ℕ → ℕ → α) (n : ℕ) {i j : ℕ}
    (hi : i < n) (hj : j < n) :
    idx ((List.range n).map fun r => (List.range n).map fun c => g r c) i j
      = g i j := by
  rw [idx, getD_map_range _ _ hi]
  exact getD_map_range _ _ hj

/-- Entries of the constructed factor list strictly above the diagonal (and
out of range) are `0`. -/
theorem idx_build_upper {α : Type*} [Field α] (s : α → α) (A : ℕ → ℕ → α)
    (n : ℕ) {i j : ℕ} (hij : i < j) :
    idx ((List.range n).map fun r => (List.range n).map fun c => chol s A r c)
      i j = 0 := by
  by_cases hi : i < n
  · by_cases hj : j < n
    · rw [idx_build _ n hi hj]
      exact chol_gt s A hij
    · rw [idx, getD_map_range _ _ hi]
      exact getD_default _ _ (by simp [le_of_not_lt hj])
  · have houter : ((List.range n).map fun r =>
        (List.range n).map fun c => chol s A r c).getD i [] = [] :=
      getD_default _ _ (by simpa using le_of_not_lt hi)
    rw [idx, houter]
    rfl

/-! ### Congruence: the substitution values only read entries inside the block -/

theorem forwardVal_congr {α : Type*} [Field α] (L L' : ℕ → ℕ → α) (b : ℕ → α)
    (n : ℕ) (h : ∀ r c, r < n → c < n → L r c = L' r c) :
    ∀ i, i < n → forwardVal L b i = forwardVal L' b i := by
  intro i
  induction i using Nat.strong_induction_on with
  | _ i IH =>
    intro hin
    rw [forwardVal_eq, forwardVal_eq, h i i hin hin]
    rw [show ∑ j ∈ Finset.range i, L i j * forwardVal L b j =
        ∑ j ∈ Finset.range i, L' i j * forwardVal L' b j from
      Finset.sum_congr rfl fun j hj => by
        have hj' := Finset.mem_range.mp hj
        rw [h i j hin (hj'.trans hin), IH j hj' (hj'.trans hin)]]

theorem backwardVal_congr {α : Type*} [Field α] (U U' : ℕ → ℕ → α) (v : ℕ → α)
    (n : ℕ) (h : ∀ r c, r < n → c < n → U r c = U' r c) :
    ∀ i, i < n → backwardVal U v n i = backwardVal U' v n i := by
  have H : ∀ k i, i < n → n - i ≤ k →
      backwardVal U v n i = backwardVal U' v n i := by
    intro k
    induction k with
    | zero =>
      intro i hin h0
      omega
    | succ k IH =>
      intro i hin hk
      rw [backwardVal_eq, backwardVal_eq, h i i hin hin]
      rw [show ∑ j ∈ Finset.Ico (i + 1) n, U i j * backwardVal U v n j =
          ∑ j ∈ Finset.Ico (i + 1) n, U' i j * backwardVal U' v n j from
        Finset.sum_congr rfl fun j hj => by
          have hj' := Finset.mem_Ico.mp hj
          rw [h i j hin hj'.2, IH j hj'.2 (by omega)]]
  exact fun i hin => H n i hin (by omega)

/-! ### Concrete evaluation: the first predefined system -/

theorem sep_m1_fst : (separateAugmented matrix1).1 =
    [[(1:ℝ), -1, 3, 2], [-1, 5, -5, -2], [3, -5, 19, 3], [2, -2, 3, 21]] := rfl

theorem sep_m1_snd : (separateAugmented matrix1).2 = [(15:ℝ), -35, 94, 1] := rfl

theorem chol_m1 : ∀ i, i < 4 → ∀ j, j < 4 →
    chol Real.sqrt (idx (separateAugmented matrix1).1) i j = idx lower1 i j := by
  have hAM : ∀ i, i < 4 → ∀ j, j ≤ i →
      idx (separateAugmented matrix1).1 i j =
        ∑ k ∈ Finset.range (j + 1), idx lower1 i k * idx lower1 j k := by
    intro i hi j hji
    rw [sep_m1_fst]
    interval_cases i <;> interval_cases j <;>
      norm_num [Finset.sum_range_succ, Finset.sum_range_zero, idx, lower1]
  have hpos : ∀ i, i < 4 → 0 < idx lower1 i i := by
    intro i hi
    interval_cases i <;> norm_num [idx, lower1]
  intro i hi j hj
  rcases le_or_lt j i with h | h
  · exact chol_unique _ (idx lower1) 4 hAM hpos i hi j h
  · rw [chol_gt Real.sqrt _ h]
    symm
    interval_cases i <;> interval_cases j <;> norm_num [idx, lower1]

theorem lower_m1 : (List.range (separateAugmented matrix1).1.length).map
    (fun i => (List.range (separateAugmented matrix1).1.length).map fun j =>
      chol Real.sqrt (idx (separateAugmented matrix1).1) i j) = lower1 := by
  have h4 : (separateAugmented matrix1).1.length = 4 := rfl
  rw [h4]
  calc (List.range 4).map (fun i => (List.range 4).map fun j =>
        chol Real.sqrt (idx (separateAugmented matrix1).1) i j)
      = (List.range 4).map fun i => (List.range 4).map fun j =>
          idx lower1 i j := by
        refine List.map_congr_left fun i hi => ?_
        refine List.map_congr_left fun j hj => ?_
        exact chol_m1 i (List.mem_range.mp hi) j (List.mem_range.mp hj)
    _ = lower1 := rfl

theorem y_m1 : forward_substitution lower1 [(15:ℝ), -35, 94, 1] =
    [15, -10, 13, -4] := by
  have h0 : forwardVal (idx lower1) (vidx [(15:ℝ), -35, 94, 1]) 0 = 15 := by
    rw [forwardVal_eq]
    norm_num [Finset.sum_range_zero, idx, vidx, lower1]
  have h1 : forwardVal (idx lower1) (vidx [(15:ℝ), -35, 94, 1]) 1 = -10 := by
    rw [forwardVal_eq, Finset.sum_range_one, h0]
    norm_num [idx, vidx, lower1]
  have h2 : forwardVal (idx lower1) (vidx [(15:ℝ), -35, 94, 1]) 2 = 13 := by
    rw [forwardVal_eq, Finset.sum_range_succ, Finset.sum_range_one, h0, h1]
    norm_num [idx, vidx, lower1]
  have h3 : forwardVal (idx lower1) (vidx [(15:ℝ), -35, 94, 1]) 3 = -4 := by
    rw [forwardVal_eq, Finset.sum_range_succ, Finset.sum_range_succ,
      Finset.sum_range_one, h0, h1, h2]
    norm_num [idx, vidx, lower1]
  have hmap : forward_substitution lower1 [(15:ℝ), -35, 94, 1] =
      [forwardVal (idx lower1) (vidx [(15:ℝ), -35, 94, 1]) 0,
        forwardVal (idx lower1) (vidx [(15:ℝ), -35, 94, 1]) 1,
        forwardVal (idx lower1) (vidx [(15:ℝ), -35, 94, 1]) 2,
        forwardVal (idx lower1) (vidx [(15:ℝ), -35, 94, 1]) 3] := rfl
  rw [hmap, h0, h1, h2, h3]

theorem x_m1 : backward_substitution (compute_transpose lower1)
    [(15:ℝ), -10, 13, -4] = [2, -3, 4, -1] := by
  have hu : compute_transpose lower1 =
      [[(1:ℝ), -1, 3, 2], [0, 2, -1, 0], [0, 0, 3, -1], [0, 0, 0, 4]] := rfl
  rw [hu]
  have h3 : backwardVal
      (idx [[(1:ℝ), -1, 3, 2], [0, 2, -1, 0], [0, 0, 3, -1], [0, 0, 0, 4]])
      (vidx [(15:ℝ), -10, 13, -4]) 4 3 = -1 := by
    rw [backwardVal_eq, Finset.Ico_self]
    norm_num [Finset.sum_empty, idx, vidx]
  have h2 : backwardVal
      (idx [[(1:ℝ), -1, 3, 2], [0, 2, -1, 0], [0, 0, 3, -1], [0, 0, 0, 4]])
      (vidx [(15:ℝ), -10, 13, -4]) 4 2 = 4 := by
    rw [backwardVal_eq, Finset.sum_Ico_eq_sum_range]
    norm_num [Finset.sum_range_one, h3, idx, vidx]
  have h1 : backwardVal
      (idx [[(1:ℝ), -1, 3, 2], [0, 2, -1, 0], [0, 0, 3, -1], [0, 0, 0, 4]])
      (vidx [(15:ℝ), -10, 13, -4]) 4 1 = -3 := by
    rw [backwardVal_eq, Finset.sum_Ico_eq_sum_range]
    norm_num [Finset.sum_range_succ, Finset.sum_range_one, h2, h3, idx, vidx]
  have h0 : backwardVal
      (idx [[(1:ℝ), -1, 3, 2], [0, 2, -1, 0], [0, 0, 3, -1], [0, 0, 0, 4]])
      (vidx [(15:ℝ), -10, 13, -4]) 4 0 = 2 := by
    rw [backwardVal_eq, Finset.sum_Ico_eq_sum_range]
    norm_num [Finset.sum_range_succ, Finset.sum_range_one, h1, h2, h3, idx, vidx]
  have hmap : backward_substitution
      [[(1:ℝ), -1, 3, 2], [0, 2, -1, 0], [0, 0, 3, -1], [0, 0, 0, 4]]
      [(15:ℝ), -10, 13, -4] =
      [backwardVal
          (idx [[(1:ℝ), -1, 3, 2], [0, 2, -1, 0], [0, 0, 3, -1], [0, 0, 0, 4]])
          (vidx [(15:ℝ), -10, 13, -4]) 4 0,
        backwardVal
          (idx [[(1:ℝ), -1, 3, 2], [0, 2, -1, 0], [0, 0, 3, -1], [0, 0, 0, 4]])
          (vidx [(15:ℝ), -10, 13, -4]) 4 1,
        backwardVal
          (idx [[(1:ℝ), -1, 3, 2], [0, 2, -1, 0], [0, 0, 3, -1], [0, 0, 0, 4]])
          (vidx [(15:ℝ), -10, 13, -4]) 4 2,
        backwardVal
          (idx [[(1:ℝ), -1, 3, 2], [0, 2, -1, 0], [0, 0, 3, -1], [0, 0, 0, 4]])
          (vidx [(15:ℝ), -10, 13, -4]) 4 3] := rfl
  rw [hmap, h0, h1, h2, h3]

theorem decompose_m1 : decompose_cholesky matrix1 =
    ([2, -3, 4, -1], lower1, compute_transpose lower1) := by
  simp only [decompose_cholesky, decompose_cholesky_core, flatten_rhs]
  rw [lower_m1, sep_m1_snd, y_m1, x_m1]

/-! ### Concrete evaluation: the second predefined system -/

theorem sep_m2_fst : (separateAugmented matrix2).1 =
    [[(4:ℝ), 2, 4, 0], [2, 2, 3, 2], [4, 3, 6, 3], [0, 2, 3, 9]] := rfl

theorem sep_m2_snd : (separateAugmented matrix2).2 = [(20:ℝ), 36, 60, 122] := rfl

theorem chol_m2 : ∀ i, i < 4 → ∀ j, j < 4 →
    chol Real.sqrt (idx (separateAugmented matrix2).1) i j = idx lower2 i j := by
  have hAM : ∀ i, i < 4 → ∀ j, j ≤ i →
      idx (separateAugmented matrix2).1 i j =
        ∑ k ∈ Finset.range (j + 1), idx lower2 i k * idx lower2 j k := by
    intro i hi j hji
    rw [sep_m2_fst]
    interval_cases i <;> interval_cases j <;>
      norm_num [Finset.sum_range_succ, Finset.sum_range_zero, idx, lower2]
  have hpos : ∀ i, i < 4 → 0 < idx lower2 i i := by
    intro i hi
    interval_cases i <;> norm_num [idx, lower2]
  intro i hi j hj
  rcases le_or_lt j i with h | h
  · exact chol_unique _ (idx lower2) 4 hAM hpos i hi j h
  · rw [chol_gt Real.sqrt _ h]
    symm
    interval_cases i <;> interval_cases j <;> norm_num [idx, lower2]

theorem lower_m2 : (List.range (separateAugmented matrix2).1.length).map
    (fun i => (List.range (separateAugmented matrix2).1.length).map fun j =>
      chol Real.sqrt (idx (separateAugmented matrix2).1) i j) = lower2 := by
  have h4 : (separateAugmented matrix2).1.length = 4 := rfl
  rw [h4]
  calc (List.range 4).map (fun i => (List.range 4).map fun j =>
        chol Real.sqrt (idx (separateAugmented matrix2).1) i j)
      = (List.range 4).map fun i => (List.range 4).map fun j =>
          idx lower2 i j := by
        refine List.map_congr_left fun i hi => ?_
        refine List.map_congr_left fun j hj => ?_
        exact chol_m2 i (List.mem_range.mp hi) j (List.mem_range.mp hj)
    _ = lower2 := rfl

theorem y_m2 : forward_substitution lower2 [(20:ℝ), 36, 60, 122] =
    [10, 26, 14, 28] := by
  have h0 : forwardVal (idx lower2) (vidx [(20:ℝ), 36, 60, 122]) 0 = 10 := by
    rw [forwardVal_eq]
    norm_num [Finset.sum_range_zero, idx, vidx, lower2]
  have h1 : forwardVal (idx lower2) (vidx [(20:ℝ), 36, 60, 122]) 1 = 26 := by
    rw [forwardVal_eq, Finset.sum_range_one, h0]
    norm_num [idx, vidx, lower2]
  have h2 : forwardVal (idx lower2) (vidx [(20:ℝ), 36, 60, 122]) 2 = 14 := by
    rw [forwardVal_eq, Finset.sum_range_succ, Finset.sum_range_one, h0, h1]
    norm_num [idx, vidx, lower2]
  have h3 : forwardVal (idx lower2) (vidx [(20:ℝ), 36, 60, 122]) 3 = 28 := by
    rw [forwardVal_eq, Finset.sum_range_succ, Finset.sum_range_succ,
      Finset.sum_range_one, h0, h1, h2]
    norm_num [idx, vidx, lower2]
  have hmap : forward_substitution lower2 [(20:ℝ), 36, 60, 122] =
      [forwardVal (idx lower2) (vidx [(20:ℝ), 36, 60, 122]) 0,
        forwardVal (idx lower2) (vidx [(20:ℝ), 36, 60, 122]) 1,
        forwardVal (idx lower2) (vidx [(20:ℝ), 36, 60, 122]) 2,
        forwardVal (idx lower2) (vidx [(20:ℝ), 36, 60, 122]) 3] := rfl
  rw [hmap, h0, h1, h2, h3]

theorem x_m2 : backward_substitution (compute_transpose lower2)
    [(10:ℝ), 26, 14, 28] = [6, -2, 0, 14] := by
  have hu : compute_transpose lower2 =
      [[(2:ℝ), 1, 2, 0], [0, 1, 1, 2], [0, 0, 1, 1], [0, 0, 0, 2]] := rfl
  rw [hu]
  have h3 : backwardVal
      (idx [[(2:ℝ), 1, 2, 0], [0, 1, 1, 2], [0, 0, 1, 1], [0, 0, 0, 2]])
      (vidx [(10:ℝ), 26, 14, 28]) 4 3 = 14 := by
    rw [backwardVal_eq, Finset.Ico_self]
    norm_num [Finset.sum_empty, idx, vidx]
  have h2 : backwardVal
      (idx [[(2:ℝ), 1, 2, 0], [0, 1, 1, 2], [0, 0, 1, 1], [0, 0, 0, 2]])
      (vidx [(10:ℝ), 26, 14, 28]) 4 2 = 0 := by
    rw [backwardVal_eq, Finset.sum_Ico_eq_sum_range]
    norm_num [Finset.sum_range_one, h3, idx, vidx]
  have h1 : backwardVal
      (idx [[(2:ℝ), 1, 2, 0], [0, 1, 1, 2], [0, 0, 1, 1], [0, 0, 0, 2]])
      (vidx [(10:ℝ), 26, 14, 28]) 4 1 = -2 := by
    rw [backwardVal_eq, Finset.sum_Ico_eq_sum_range]
    norm_num [Finset.sum_range_succ, Finset.sum_range_one, h2, h3, idx, vidx]
  have h0 : backwardVal
      (idx [[(2:ℝ), 1, 2, 0], [0, 1, 1, 2], [0, 0, 1, 1], [0, 0, 0, 2]])
      (vidx [(10:ℝ), 26, 14, 28]) 4 0 = 6 := by
    rw [backwardVal_eq, Finset.sum_Ico_eq_sum_range]
    norm_num [Finset.sum_range_succ, Finset.sum_range_one, h1, h2, h3, idx, vidx]
  have hmap : backward_substitution
      [[(2:ℝ), 1, 2, 0], [0, 1, 1, 2], [0, 0, 1, 1], [0, 0, 0, 2]]
      [(10:ℝ), 26, 14, 28] =
      [backwardVal
          (idx [[(2:ℝ), 1, 2, 0], [0, 1, 1, 2], [0, 0, 1, 1], [0, 0, 0, 2]])
          (vidx [(10:ℝ), 26, 14, 28]) 4 0,
        backwardVal
          (idx [[(2:ℝ), 1, 2, 0], [0, 1, 1, 2], [0, 0, 1, 1], [0, 0, 0, 2]])
          (vidx [(10:ℝ), 26, 14, 28]) 4 1,
        backwardVal
          (idx [[(2:ℝ), 1, 2, 0], [0, 1, 1, 2], [0, 0, 1, 1], [0, 0, 0, 2]])
          (vidx [(10:ℝ), 26, 14, 28]) 4 2,
        backwardVal
          (idx [[(2:ℝ), 1, 2, 0], [0, 1, 1, 2], [0, 0, 1, 1], [0, 0, 0, 2]])
          (vidx [(10:ℝ), 26, 14, 28]) 4 3] := rfl
  rw [hmap, h0, h1, h2, h3]

theorem decompose_m2 : decompose_cholesky matrix2 =
    ([6, -2, 0, 14], lower2, compute_transpose lower2) := by
  simp only [decompose_cholesky, decompose_cholesky_core, flatten_rhs]
  rw [lower_m2, sep_m2_snd, y_m2, x_m2]

/-! ### Concrete evaluation: the classifier on the two coefficient blocks -/

theorem check_m1_eval : check_symmetric_positive_definite
    (separateAugmented matrix1).1 [1, 1, 1, 1] = (true, []) := by
  rw [sep_m1_fst]
  simp only [check_symmetric_positive_definite]
  rw [if_neg fun h => h rfl]
  have htake : List.take
      (List.length [[(1:ℝ), -1, 3, 2], [-1, 5, -5, -2], [3, -5, 19, 3],
        [2, -2, 3, 21]]) [(1:ℝ), 1, 1, 1] = [(1:ℝ), 1, 1, 1] := rfl
  rw [htake]
  have hq : quadratic_form
      [[(1:ℝ), -1, 3, 2], [-1, 5, -5, -2], [3, -5, 19, 3], [2, -2, 3, 21]]
      [(1:ℝ), 1, 1, 1] = 46 := by
    norm_num [quadratic_form, Finset.sum_range_succ, Finset.sum_range_zero,
      idx, vidx]
  rw [if_pos (by rw [hq]; norm_num)]
  rfl

theorem check_m2_eval : check_symmetric_positive_definite
    (separateAugmented matrix2).1 [1, 1, 1, 1] = (true, []) := by
  rw [sep_m2_fst]
  simp only [check_symmetric_positive_definite]
  rw [if_neg fun h => h rfl]
  have htake : List.take
      (List.length [[(4:ℝ), 2, 4, 0], [2, 2, 3, 2], [4, 3, 6, 3],
        [0, 2, 3, 9]]) [(1:ℝ), 1, 1, 1] = [(1:ℝ), 1, 1, 1] := rfl
  rw [htake]
  have hq : quadratic_form
      [[(4:ℝ), 2, 4, 0], [2, 2, 3, 2], [4, 3, 6, 3], [0, 2, 3, 9]]
      [(1:ℝ), 1, 1, 1] = 49 := by
    norm_num [quadratic_form, Finset.sum_range_succ, Finset.sum_range_zero,
      idx, vidx]
  rw [if_pos (by rw [hq]; norm_num)]
  rfl

/-! ### Concrete evaluation over `ℂ`: a negative radicand that still solves -/

theorem cex_A : (separateAugmented [[(-1:ℂ), 0, 1], [0, 1, 1]]).1 =
    [[(-1:ℂ), 0], [0, 1]] := rfl

theorem cex_b : (separateAugmented [[(-1:ℂ), 0, 1], [0, 1, 1]]).2 =
    [(1:ℂ), 1] := rfl

theorem cex_L00 : chol pysqrtC (idx [[(-1:ℂ), 0], [0, 1]]) 0 0 = Complex.I := by
  rw [chol_diag, Finset.sum_range_zero]
  rw [show idx [[(-1:ℂ), 0], [0, 1]] 0 0 - 0 = -1 by norm_num [idx]]
  exact pysqrtC_neg_one

theorem cex_L10 : chol pysqrtC (idx [[(-1:ℂ), 0], [0, 1]]) 1 0 = 0 := by
  rw [chol_off pysqrtC _ Nat.zero_lt_one, Finset.sum_range_zero]
  norm_num [idx]

theorem cex_L11 : chol pysqrtC (idx [[(-1:ℂ), 0], [0, 1]]) 1 1 = 1 := by
  rw [chol_diag, Finset.sum_range_one, cex_L10]
  rw [show idx [[(-1:ℂ), 0], [0, 1]] 1 1 - (0:ℂ) ^ 2 = 1 by norm_num [idx]]
  exact pysqrtC_one

theorem cex_y0 : forwardVal (chol pysqrtC (idx [[(-1:ℂ), 0], [0, 1]]))
    (vidx [(1:ℂ), 1]) 0 = -Complex.I := by
  rw [forwardVal_eq, Finset.sum_range_zero, cex_L00]
  rw [show vidx [(1:ℂ), 1] 0 - 0 = 1 by norm_num [vidx]]
  rw [Complex.div_I]
  ring

theorem cex_y1 : forwardVal (chol pysqrtC (idx [[(-1:ℂ), 0], [0, 1]]))
    (vidx [(1:ℂ), 1]) 1 = 1 := by
  rw [forwardVal_eq, Finset.sum_range_one, cex_L10, cex_L11, cex_y0]
  norm_num [vidx]

theorem cex_x1 : backwardVal
    (fun i j => chol pysqrtC (idx [[(-1:ℂ), 0], [0, 1]]) j i)
    (vidx [-Complex.I, (1:ℂ)]) 2 1 = 1 := by
  rw [backwardVal_eq, Finset.Ico_self, Finset.sum_empty]
  rw [cex_L11]
  norm_num [vidx]

theorem cex_x0 : backwardVal
    (fun i j => chol pysqrtC (idx [[(-1:ℂ), 0], [0, 1]]) j i)
    (vidx [-Complex.I, (1:ℂ)]) 2 0 = -1 := by
  rw [backwardVal_eq, Finset.sum_Ico_eq_sum_range]
  rw [show (2:ℕ) - (0 + 1) = 1 from rfl, Finset.sum_range_one]
  rw [show (0:ℕ) + 1 + 0 = 1 from rfl, cex_L10, cex_x1]
  rw [cex_L00]
  rw [show vidx [-Complex.I, (1:ℂ)] 0 - 0 * 1 = -Complex.I by norm_num [vidx]]
  rw [neg_div, div_self Complex.I_ne_zero]

theorem solve_cex : solve_cholesky_checked [[(-1:ℂ), 0, 1], [0, 1, 1]] =
    Except.ok [-1, 1] := by
  simp only [solve_cholesky_checked]
  rw [cex_A, cex_b]
  rw [show List.length [[(-1:ℂ), 0], [0, 1]] = 2 from rfl]
  simp only [solve_stages]
  have hfac : ∀ j, j + 1 < 2 →
      chol pysqrtC (idx [[(-1:ℂ), 0], [0, 1]]) j j ≠ 0 := by
    intro j hj
    have hj0 : j = 0 := by omega
    rw [hj0, cex_L00]
    exact Complex.I_ne_zero
  rw [(factor_checked_ok_iff _ 2).mpr hfac]
  dsimp only
  have hnoex : ¬∃ i, i < 2 ∧
      chol pysqrtC (idx [[(-1:ℂ), 0], [0, 1]]) i i = 0 := by
    rintro ⟨i, hi, hz⟩
    interval_cases i
    · rw [cex_L00] at hz
      exact Complex.I_ne_zero hz
    · rw [cex_L11] at hz
      exact one_ne_zero hz
  rw [forward_checked_eq, if_neg hnoex]
  dsimp only
  rw [show (List.range 2).map (forwardVal
        (chol pysqrtC (idx [[(-1:ℂ), 0], [0, 1]])) (vidx [(1:ℂ), 1])) =
      [forwardVal (chol pysqrtC (idx [[(-1:ℂ), 0], [0, 1]]))
          (vidx [(1:ℂ), 1]) 0,
        forwardVal (chol pysqrtC (idx [[(-1:ℂ), 0], [0, 1]]))
          (vidx [(1:ℂ), 1]) 1] from rfl]
  rw [cex_y0, cex_y1]
  have hnoex2 : ¬∃ i, 2 - 2 ≤ i ∧ i < 2 ∧
      (fun i j => chol pysqrtC (idx [[(-1:ℂ), 0], [0, 1]]) j i) i i = 0 := by
    rintro ⟨i, h0, h2, hz⟩
    simp only at hz
    interval_cases i
    · rw [cex_L00] at hz
      exact Complex.I_ne_zero hz
    · rw [cex_L11] at hz
      exact one_ne_zero hz
  rw [backward_checked_eq _ _ 2 2 le_rfl, if_neg hnoex2]
  dsimp only
  rw [show (List.range 2).map (fun t => backwardVal
        (fun i j => chol pysqrtC (idx [[(-1:ℂ), 0], [0, 1]]) j i)
        (vidx [-Complex.I, (1:ℂ)]) 2 (2 - 2 + t)) =
      [backwardVal (fun i j => chol pysqrtC (idx [[(-1:ℂ), 0], [0, 1]]) j i)
          (vidx [-Complex.I, (1:ℂ)]) 2 0,
        backwardVal (fun i j => chol pysqrtC (idx [[(-1:ℂ), 0], [0, 1]]) j i)
          (vidx [-Complex.I, (1:ℂ)]) 2 1] from rfl]
  rw [cex_x0, cex_x1]

/-! ### The boundary 1×1 system -/

theorem chol_1x1 (a : ℝ) : chol Real.sqrt (idx [[a]]) 0 0 = Real.sqrt a := by
  rw [chol_diag, Finset.sum_range_zero]
  norm_num [idx]

theorem decompose_1x1 (a b : ℝ) (ha : 0 < a) :
    decompose_cholesky [[a, b]] =
      ([b / a], [[Real.sqrt a]], [[Real.sqrt a]]) := by
  simp only [decompose_cholesky, decompose_cholesky_core, flatten_rhs]
  rw [show (separateAugmented [[a, b]]).2 = [b] from rfl]
  rw [show (separateAugmented [[a, b]]).1 = [[a]] from rfl]
  rw [show List.length [[a]] = 1 from rfl]
  rw [show (List.range 1).map (fun i => (List.range 1).map fun j =>
      chol Real.sqrt (idx [[a]]) i j) = [[chol Real.sqrt (idx [[a]]) 0 0]]
    from rfl]
  rw [chol_1x1 a]
  rw [show compute_transpose [[Real.sqrt a]] = [[Real.sqrt a]] from rfl]
  have hy : forward_substitution [[Real.sqrt a]] [b] = [b / Real.sqrt a] := by
    rw [show forward_substitution [[Real.sqrt a]] [b] =
        [forwardVal (idx [[Real.sqrt a]]) (vidx [b]) 0] from rfl]
    rw [forwardVal_eq, Finset.sum_range_zero]
    norm_num [idx, vidx]
  rw [hy]
  have hx : backward_substitution [[Real.sqrt a]] [b / Real.sqrt a] =
      [b / a] := by
    rw [show backward_substitution [[Real.sqrt a]] [b / Real.sqrt a] =
        [backwardVal (idx [[Real.sqrt a]]) (vidx [b / Real.sqrt a]) 1 0]
      from rfl]
    rw [backwardVal_eq, Finset.Ico_self, Finset.sum_empty]
    rw [show vidx [b / Real.sqrt a] 0 - 0 = b / Real.sqrt a by
      norm_num [vidx]]
    rw [show idx [[Real.sqrt a]] 0 0 = Real.sqrt a from rfl]
    rw [div_div, Real.mul_self_sqrt (le_of_lt ha)]
  rw [hx]

theorem check_1x1 (a : ℝ) (rng : List ℝ) (ha : 0 < a)
    (hr : vidx rng 0 ≠ 0) :
    (check_symmetric_positive_definite [[a]] rng).1 = true := by
  simp only [check_symmetric_positive_definite]
  rw [if_neg fun h => h rfl]
  have hv : vidx (List.take 1 rng) 0 = vidx rng 0 := by
    cases rng with
    | nil => rfl
    | cons x l => rfl
  have hq : quadratic_form [[a]] (List.take (List.length [[a]]) rng) =
      vidx rng 0 * (a * vidx rng 0) := by
    rw [quadratic_form]
    rw [show List.length [[a]] = 1 from rfl, Finset.sum_range_one,
      Finset.sum_range_one, hv]
    rw [show idx [[a]] 0 0 = a from rfl]
  rw [if_pos (by
    rw [hq]
    have h2 : 0 < vidx rng 0 * vidx rng 0 := mul_self_pos.mpr hr
    nlinarith)]

theorem mat_vec_mul_four (A : List (List ℝ)) (x : List ℝ)
    (h4 : A.length = 4) (hx : x.length = 4) :
    mat_vec_mul A x =
      [∑ j ∈ Finset.range 4, idx A 0 j * vidx x j,
        ∑ j ∈ Finset.range 4, idx A 1 j * vidx x j,
        ∑ j ∈ Finset.range 4, idx A 2 j * vidx x j,
        ∑ j ∈ Finset.range 4, idx A 3 j * vidx x j] := by
  simp only [mat_vec_mul]
  rw [h4, hx]
  rfl

/-! ## The claims -/

/-- C1: for every augmented matrix input the dispatcher routes on the
classifier's result: when the classifier returns `true` the solution is the
Cholesky path — factor the coefficient block, transpose the factor, forward
then backward substitution — recorded as `Cholesky`; when it returns `false`
the full augmented matrix is delegated unchanged to the external Doolittle
solver, recorded as `Doolittle`.  The two branches of the `if` are the only
paths that produce a result. -/
theorem claim_C1 (doolittle : List (List ℝ) → List ℝ)
    (matrix_aug : List (List ℝ)) (rng : List ℝ) :
    solve_one doolittle matrix_aug rng =
      if (check_symmetric_positive_definite (separateAugmented matrix_aug).1
          rng).1 then
        (backward_substitution
          (compute_transpose
            ((List.range (separateAugmented matrix_aug).1.length).map fun i =>
              (List.range (separateAugmented matrix_aug).1.length).map fun j =>
                chol Real.sqrt (idx (separateAugmented matrix_aug).1) i j))
          (forward_substitution
            ((List.range (separateAugmented matrix_aug).1.length).map fun i =>
              (List.range (separateAugmented matrix_aug).1.length).map fun j =>
                chol Real.sqrt (idx (separateAugmented matrix_aug).1) i j)
            (separateAugmented matrix_aug).2),
          Method.Cholesky)
      else (doolittle matrix_aug, Method.Doolittle) := rfl

/-- C2: for every symmetric positive-definite `n×n` coefficient matrix the
factor entries satisfy the stated diagonal and off-diagonal recurrences row by
row, and the resulting factor satisfies `L·Lᵗ = A` exactly (the
ideal-arithmetic counterpart of "within floating-point tolerance"). -/
theorem claim_C2 (A : ℕ → ℕ → ℝ) (n : ℕ)
    (hsym : ∀ i j, A j i = A i j)
    (hpd : ∀ v : ℕ → ℝ, (∃ i, i < n ∧ v i ≠ 0) →
      0 < ∑ r ∈ Finset.range n, ∑ s ∈ Finset.range n, v r * A r s * v s) :
    (∀ i, i < n → chol Real.sqrt A i i =
      Real.sqrt (A i i - ∑ k ∈ Finset.range i, chol Real.sqrt A i k ^ 2)) ∧
    (∀ i, i < n → ∀ j, j < i → chol Real.sqrt A i j =
      (A i j - ∑ k ∈ Finset.range j,
        chol Real.sqrt A i k * chol Real.sqrt A j k) / chol Real.sqrt A j j) ∧
    (∀ i, i < n → ∀ j, j < n →
      ∑ k ∈ Finset.range n, chol Real.sqrt A i k * chol Real.sqrt A j k =
        A i j) :=
  ⟨fun i _ => chol_diag Real.sqrt A i, fun _ _ _ hj => chol_off Real.sqrt A hj,
    chol_mul_transpose A n hsym hpd⟩

theorem claim_C2_witness :
    ∑ k ∈ Finset.range 1, chol Real.sqrt (fun _ _ => (1:ℝ)) 0 k *
      chol Real.sqrt (fun _ _ => (1:ℝ)) 0 k = 1 :=
  (claim_C2 (fun _ _ => (1:ℝ)) 1 (fun _ _ => rfl) (fun v hv => by
    obtain ⟨i, hi, hvi⟩ := hv
    have hi0 : i = 0 := by omega
    rw [Finset.sum_range_one, Finset.sum_range_one]
    rw [hi0] at hvi
    show (0:ℝ) < v 0 * 1 * v 0
    nlinarith [mul_self_pos.mpr hvi])).2.2 0 Nat.zero_lt_one 0 Nat.zero_lt_one

/-- C3: forward substitution computes `y[i] = (b[i] − Σ_{j<i} L[i][j]·y[j]) /
L[i][i]` (increasing order: each value reads only earlier ones), backward
substitution computes `x[i] = (v[i] − Σ_{j>i} U[i][j]·x[j]) / U[i][i]`
(decreasing order), each checked routine fails with a division by zero iff
some diagonal entry among the first `n` is zero, and when all diagonal
entries are nonzero both succeed with exactly the vectors of those
recurrences. -/
theorem claim_C3 (L : ℕ → ℕ → ℝ) (b : ℕ → ℝ) (n : ℕ) :
    (∀ i, forwardVal L b i =
      (b i - ∑ j ∈ Finset.range i, L i j * forwardVal L b j) / L i i) ∧
    (∀ i, backwardVal L b n i =
      (b i - ∑ j ∈ Finset.Ico (i + 1) n, L i j * backwardVal L b n j) /
        L i i) ∧
    (forward_substitution_checked L b n = none ↔ ∃ i, i < n ∧ L i i = 0) ∧
    (backward_substitution_checked L b n n = none ↔
      ∃ i, i < n ∧ L i i = 0) ∧
    ((∀ i, i < n → L i i ≠ 0) →
      forward_substitution_checked L b n =
        some ((List.range n).map (forwardVal L b)) ∧
      backward_substitution_checked L b n n =
        some ((List.range n).map (backwardVal L b n))) := by
  have hbset : (∃ i, n - n ≤ i ∧ i < n ∧ L i i = 0) ↔
      (∃ i, i < n ∧ L i i = 0) := by
    constructor
    · rintro ⟨i, h1, h2, h3⟩
      exact ⟨i, h2, h3⟩
    · rintro ⟨i, h2, h3⟩
      exact ⟨i, by omega, h2, h3⟩
  refine ⟨fun i => forwardVal_eq L b i, fun i => backwardVal_eq L b n i,
    ?_, ?_, ?_⟩
  · rw [forward_checked_eq]
    by_cases hex : ∃ i, i < n ∧ L i i = 0
    · simp [hex]
    · simp [hex]
  · rw [backward_checked_eq L b n n le_rfl]
    by_cases hex : ∃ i, i < n ∧ L i i = 0
    · rw [if_pos (hbset.mpr hex)]
      simp [hex]
    · rw [if_neg fun h => hex (hbset.mp h)]
      simp [hex]
  · intro hnz
    have hnex : ¬∃ i, i < n ∧ L i i = 0 := by
      rintro ⟨i, h1, h2⟩
      exact hnz i h1 h2
    constructor
    · rw [forward_checked_eq, if_neg hnex]
    · rw [backward_checked_eq L b n n le_rfl,
        if_neg fun h => hnex (hbset.mp h)]
      refine congrArg some (List.map_congr_left fun t ht => ?_)
      have : n - n + t = t := by omega
      rw [this]

theorem claim_C3_witness :
    ((1:ℝ) ≠ 0) ∧
    forward_substitution_checked (fun _ _ => (1:ℝ)) (fun _ => (5:ℝ)) 1 =
      some [5] := by
  refine ⟨one_ne_zero, ?_⟩
  have h := (claim_C3 (fun _ _ => (1:ℝ)) (fun _ => (5:ℝ)) 1).2.2.2.2
    fun i _ => one_ne_zero
  rw [h.1]
  rw [show (List.range 1).map (forwardVal (fun _ _ => (1:ℝ)) fun _ => (5:ℝ)) =
      [forwardVal (fun _ _ => (1:ℝ)) (fun _ => (5:ℝ)) 0] from rfl]
  rw [forwardVal_eq]
  norm_num

/-- C4: for every square matrix that is not exactly equal to its transpose the
classifier returns `false` immediately, consuming no random draw (the stream
is returned untouched); the positive-definiteness step runs only on exactly
symmetric input. -/
theorem claim_C4 (A : List (List ℝ)) (rng : List ℝ)
    (h : A ≠ compute_transpose A) :
    check_symmetric_positive_definite A rng = (false, rng) := by
  simp only [check_symmetric_positive_definite]
  rw [if_pos h]

theorem claim_C4_witness :
    ([[(1:ℝ), 2], [3, 1]] ≠ compute_transpose [[(1:ℝ), 2], [3, 1]]) ∧
    check_symmetric_positive_definite [[(1:ℝ), 2], [3, 1]] [1] =
      (false, [1]) := by
  have hne : [[(1:ℝ), 2], [3, 1]] ≠ compute_transpose [[(1:ℝ), 2], [3, 1]] := by
    rw [show compute_transpose [[(1:ℝ), 2], [3, 1]] = [[1, 3], [2, 1]]
      from rfl]
    intro h
    simp only [List.cons.injEq] at h
    norm_num at h
  exact ⟨hne, claim_C4 _ _ hne⟩

-- C5: for exactly symmetric input the classifier consumes one vector of
-- draws (one per row), computes the quadratic form
-- `Σ_i v[i]·(Σ_j A[i][j]·v[j])` of that single sampled vector, and returns
-- `true` iff that one value is strictly positive — a single-sample check, not
-- a test over all vectors.
open Classical in
theorem claim_C5 (A : List (List ℝ)) (rng : List ℝ)
    (h : A = compute_transpose A) :
    check_symmetric_positive_definite A rng =
      (if 0 < quadratic_form A (List.take A.length rng) then true else false,
        List.drop A.length rng) ∧
    ((check_symmetric_positive_definite A rng).1 = true ↔
      0 < quadratic_form A (List.take A.length rng)) := by
  have h1 : check_symmetric_positive_definite A rng =
      (if 0 < quadratic_form A (List.take A.length rng) then true else false,
        List.drop A.length rng) := by
    simp only [check_symmetric_positive_definite]
    rw [if_neg (not_not_intro h)]
  refine ⟨h1, ?_⟩
  rw [h1]
  by_cases hq : 0 < quadratic_form A (List.take A.length rng)
  · simp [hq]
  · simp [hq]

theorem claim_C5_witness :
    ([[(2:ℝ)]] = compute_transpose [[(2:ℝ)]]) ∧
    (check_symmetric_positive_definite [[(2:ℝ)]] [1]).1 = true := by
  refine ⟨rfl, ?_⟩
  refine (claim_C5 [[(2:ℝ)]] [1] rfl).2.mpr ?_
  rw [show List.take (List.length [[(2:ℝ)]]) [(1:ℝ)] = [(1:ℝ)] from rfl]
  norm_num [quadratic_form, Finset.sum_range_one, idx, vidx]

/-- C6 counterexample: on `[[-1,0,1],[0,1,1]]` the radicand of row 0 is `−1`,
yet the checked pipeline does not fail: it returns the vector `[-1, 1]`
(which even solves the system), contradicting "no solution vector is produced
for that call" for the negative-radicand case. -/
theorem claim_C6_counterexample :
    radicand pysqrtC (idx [[(-1:ℂ), 0], [0, 1]]) 0 = -1 ∧
    solve_cholesky_checked [[(-1:ℂ), 0, 1], [0, 1, 1]] = Except.ok [-1, 1] := by
  constructor
  · rw [radicand, Finset.sum_range_zero]
    norm_num [idx]
  · exact solve_cex

/-- C6 (amended): in the complex semantics of Python's `** 0.5`, the pipeline
fails (with a division by zero) exactly when some already-computed pivot
`L[i][i]`, `i < n`, is zero — and then no solution is produced — while a
negative radicand yields a square root with nonzero imaginary part (a
non-real value, never silently coerced to a real) and the computation
continues in complex arithmetic, possibly still returning a vector. -/
theorem claim_C6 (aug : List (List ℂ)) :
    (solve_cholesky_checked aug = Except.error () ↔
      ∃ i, i < (separateAugmented aug).1.length ∧
        chol pysqrtC (idx (separateAugmented aug).1) i i = 0) ∧
    (∀ x : ℝ, x < 0 → (pysqrtC (x : ℂ)).im ≠ 0) := by
  constructor
  · simp only [solve_cholesky_checked]
    exact solve_stages_error_iff _ _ _
  · exact fun x hx => pysqrtC_im_ne_zero_of_neg x hx

theorem claim_C6_witness :
    solve_cholesky_checked [[(0:ℂ), 1]] = Except.error () ∧
    ((-1:ℝ) < 0 ∧ (pysqrtC ((-1:ℝ) : ℂ)).im ≠ 0) := by
  constructor
  · refine (claim_C6 [[(0:ℂ), 1]]).1.mpr ⟨0, ?_, ?_⟩
    · rw [show (separateAugmented [[(0:ℂ), 1]]).1 = [[(0:ℂ)]] from rfl]
      norm_num
    · rw [show (separateAugmented [[(0:ℂ), 1]]).1 = [[(0:ℂ)]] from rfl]
      rw [chol_diag, Finset.sum_range_zero]
      rw [show idx [[(0:ℂ)]] 0 0 - 0 = 0 by norm_num [idx]]
      rw [pysqrtC]
      exact Complex.zero_cpow (by norm_num)
  · exact ⟨by norm_num, (claim_C6 [[(0:ℂ), 1]]).2 (-1) (by norm_num)⟩

/-- C7 counterexample: for the 1×1 system `[[4, 8]]` (so `a = 4 > 0`,
`b = 8`) the code returns `x = [2] = [b/a]`, while the claimed value
`[b/√a] = [4]` differs. -/
theorem claim_C7_counterexample :
    (decompose_cholesky [[(4:ℝ), 8]]).1 = [2] ∧
    (8:ℝ) / Real.sqrt 4 = 4 ∧
    ((decompose_cholesky [[(4:ℝ), 8]]).1 ≠ [(8:ℝ) / Real.sqrt 4]) := by
  have h4 : Real.sqrt 4 = 2 := by
    rw [show (4:ℝ) = 2 ^ 2 by norm_num, Real.sqrt_sq (by norm_num)]
  have hx : (decompose_cholesky [[(4:ℝ), 8]]).1 = [2] := by
    rw [decompose_1x1 4 8 (by norm_num)]
    norm_num
  refine ⟨hx, by rw [h4]; norm_num, ?_⟩
  rw [hx, h4]
  simp only [ne_eq, List.cons.injEq, and_true]
  norm_num

/-- C7 (amended): for every 1×1 augmented system `[[a, b]]` with `a > 0` and
a nonzero first draw, the dispatcher routes to Cholesky and returns
`x = [b/a]` (forward substitution gives `y = [b/√a]` and backward
substitution divides by `√a` once more); the substitutions degenerate
correctly to the scalar case `n = 1`. -/
theorem claim_C7 (a b : ℝ) (rng : List ℝ) (doolittle : List (List ℝ) → List ℝ)
    (ha : 0 < a) (hr : vidx rng 0 ≠ 0) :
    solve_one doolittle [[a, b]] rng = ([b / a], Method.Cholesky) ∧
    decompose_cholesky [[a, b]] =
      ([b / a], [[Real.sqrt a]], [[Real.sqrt a]]) ∧
    forward_substitution [[Real.sqrt a]] [b] = [b / Real.sqrt a] := by
  have hdec := decompose_1x1 a b ha
  refine ⟨?_, hdec, ?_⟩
  · simp only [solve_one]
    rw [show (separateAugmented [[a, b]]).1 = [[a]] from rfl]
    rw [if_pos (check_1x1 a rng ha hr)]
    rw [hdec]
  · rw [show forward_substitution [[Real.sqrt a]] [b] =
        [forwardVal (idx [[Real.sqrt a]]) (vidx [b]) 0] from rfl]
    rw [forwardVal_eq, Finset.sum_range_zero]
    norm_num [idx, vidx]

theorem claim_C7_witness :
    solve_one (fun _ => ([] : List ℝ)) [[(4:ℝ), 8]] [1] =
      ([2], Method.Cholesky) := by
  have h := (claim_C7 4 8 [1] (fun _ => ([] : List ℝ)) (by norm_num)
    (by norm_num [vidx])).1
  rw [h]
  norm_num

/-- C8 counterexample: the coefficient block of the second example system is
exactly symmetric (so the classifier does not route it away from Cholesky on
the symmetry test), and with the all-ones draw both example systems are
dispatched to Cholesky — neither goes to Doolittle. -/
theorem claim_C8_counterexample :
    compute_transpose (separateAugmented matrix2).1 =
      (separateAugmented matrix2).1 ∧
    (solve_one (fun _ => []) matrix1 [1, 1, 1, 1]).2 = Method.Cholesky ∧
    (solve_one (fun _ => []) matrix2 [1, 1, 1, 1]).2 = Method.Cholesky := by
  refine ⟨by rw [sep_m2_fst]; rfl, ?_, ?_⟩
  · simp only [solve_one]
    rw [if_pos (show (check_symmetric_positive_definite
        (separateAugmented matrix1).1 [1, 1, 1, 1]).1 = true by
      rw [check_m1_eval])]
  · simp only [solve_one]
    rw [if_pos (show (check_symmetric_positive_definite
        (separateAugmented matrix2).1 [1, 1, 1, 1]).1 = true by
      rw [check_m2_eval])]

/-- C8 (amended): the coefficient block of
`[[4,2,4,0,20],[2,2,3,2,36],[4,3,6,3,60],[0,2,3,9,122]]` is symmetric (and in
fact SPD), so with the all-ones draw — quadratic forms 46 and 49, both
positive — the dispatcher sends BOTH example systems to Cholesky, and each
returned `x` satisfies `A·x = b` exactly. -/
theorem claim_C8 (doolittle : List (List ℝ) → List ℝ) :
    solve_one doolittle matrix1 [1, 1, 1, 1] =
      ([2, -3, 4, -1], Method.Cholesky) ∧
    solve_one doolittle matrix2 [1, 1, 1, 1] =
      ([6, -2, 0, 14], Method.Cholesky) ∧
    mat_vec_mul (separateAugmented matrix1).1 [2, -3, 4, -1] =
      (separateAugmented matrix1).2 ∧
    mat_vec_mul (separateAugmented matrix2).1 [6, -2, 0, 14] =
      (separateAugmented matrix2).2 := by
  refine ⟨?_, ?_, ?_, ?_⟩
  · simp only [solve_one]
    rw [if_pos (show (check_symmetric_positive_definite
        (separateAugmented matrix1).1 [1, 1, 1, 1]).1 = true by
      rw [check_m1_eval])]
    rw [decompose_m1]
  · simp only [solve_one]
    rw [if_pos (show (check_symmetric_positive_definite
        (separateAugmented matrix2).1 [1, 1, 1, 1]).1 = true by
      rw [check_m2_eval])]
    rw [decompose_m2]
  · rw [sep_m1_fst, sep_m1_snd]
    rw [mat_vec_mul_four
      [[(1:ℝ), -1, 3, 2], [-1, 5, -5, -2], [3, -5, 19, 3], [2, -2, 3, 21]]
      [2, -3, 4, -1] rfl rfl]
    norm_num [Finset.sum_range_succ, Finset.sum_range_zero, idx, vidx]
  · rw [sep_m2_fst, sep_m2_snd]
    rw [mat_vec_mul_four
      [[(4:ℝ), 2, 4, 0], [2, 2, 3, 2], [4, 3, 6, 3], [0, 2, 3, 9]]
      [6, -2, 0, 14] rfl rfl]
    norm_num [Finset.sum_range_succ, Finset.sum_range_zero, idx, vidx]

/-- C9: every factor list the code produces is lower triangular —
`L[i][j] = 0` for `j > i` — and the upper matrix used downstream is exactly
`transpose(L)`; this holds for every input (the constructed list also reads
as `0` outside its bounds). -/
theorem claim_C9 (matrix_aug : List (List ℝ)) :
    (∀ i j, i < j → idx (decompose_cholesky matrix_aug).2.1 i j = 0) ∧
    (decompose_cholesky matrix_aug).2.2 =
      compute_transpose (decompose_cholesky matrix_aug).2.1 := by
  constructor
  · intro i j hij
    simp only [decompose_cholesky, decompose_cholesky_core]
    exact idx_build_upper Real.sqrt _ _ hij
  · rfl

theorem claim_C9_witness :
    idx (decompose_cholesky [[(4:ℝ), 8]]).2.1 0 1 = 0 ∧
    (decompose_cholesky [[(4:ℝ), 8]]).2.2 =
      compute_transpose (decompose_cholesky [[(4:ℝ), 8]]).2.1 :=
  ⟨(claim_C9 [[(4:ℝ), 8]]).1 0 1 Nat.zero_lt_one, (claim_C9 [[(4:ℝ), 8]]).2⟩

/-- C10: when the split delivers the right-hand side as a nested column (a
list of singleton rows), the body of `decompose_cholesky` flattens it to the
flat vector of its entries before substitution, and computes exactly the same
result as with the flat vector — so the returned `x` is a flat list of
scalars, never a list of lists. -/
theorem claim_C10 (matrix : List (List ℝ)) (b : List ℝ) :
    flatten_rhs (PyRhs.nested (b.map fun x => [x])) = b ∧
    decompose_cholesky_core matrix (PyRhs.nested (b.map fun x => [x])) =
      decompose_cholesky_core matrix (PyRhs.flat b) := by
  have hf : flatten_rhs (PyRhs.nested (b.map fun x => [x])) = b := by
    rw [flatten_rhs]
    induction b with
    | nil => rfl
    | cons x l ih =>
      rw [List.map_cons, List.flatten_cons, List.singleton_append, ih]
  refine ⟨hf, ?_⟩
  simp only [decompose_cholesky_core]
  rw [hf]
  rfl

end HW3
